import Mathlib

/-!
Verification of the collocation core of `src/demos/demapp07.py` (Cournot
oligopoly model solved by Chebyshev collocation with a Broyden iteration).

The demo file itself defines the residual function `resid` and the final
equilibrium-price bisection loop; those are embedded directly from the source.
The library pieces it calls (`BasisChebyshev`, `NLP.broyden`) are not part of
the repository sources, so they are modelled from the specification, as marked
in the doc comments below.
-/

open scoped BigOperators

namespace CompEcon

/-- Modelled from the spec: `BasisChebyshev` evaluation first maps each point
affinely from the domain `[a, b]` onto the standard interval `[-1, 1]`. -/
noncomputable def mapToStd (a b x : ℝ) : ℝ :=
  (2 * x - a - b) / (b - a)

/-- Modelled from the spec: Chebyshev basis values at `z` by the stable
three-term recurrence `T0 = 1`, `T1 = z`, `T_{k+2} = 2 z T_{k+1} - T_k`. -/
noncomputable def chebT (z : ℝ) : ℕ → ℝ
  | 0 => 1
  | 1 => z
  | (k + 2) => 2 * z * chebT z (k + 1) - chebT z k

/-- Modelled from the spec: the `k`-th of the `n` standard Chebyshev (roots)
collocation points on `[-1, 1]`, mapped onto `[a, b]` by the affine transform
`x = (a+b)/2 + (b-a)/2 · cos(...)`. -/
noncomputable def chebNode (n : ℕ) (a b : ℝ) (k : Fin n) : ℝ :=
  (a + b) / 2 + (b - a) / 2 * Real.cos ((2 * (k : ℝ) + 1) * Real.pi / (2 * n))

/-- Modelled from the spec: the state of the library's `BasisChebyshev`
(its implementation is not among the repository sources): the domain bounds,
the node set computed once at construction, and the mutable coefficient
vector.  The invariant `len(coefficients) == degree == len(nodes)` is enforced
by the `Fin n` index types. -/
structure BasisChebyshev (n : ℕ) where
  a : ℝ
  b : ℝ
  nodes : Fin n → ℝ
  c : Fin n → ℝ

/-- Modelled from the spec: `BasisChebyshev(n, a, b, c=c0)` builds the node
set at construction time and stores the supplied initial coefficients. -/
noncomputable def mkBasis (n : ℕ) (a b : ℝ) (c0 : Fin n → ℝ) : BasisChebyshev n :=
  ⟨a, b, chebNode n a b, c0⟩

/-- Modelled from the spec: the coefficient assignment `Q.c = c`
(`SetCoefficients`) replaces the coefficient vector in place and touches no
other field. -/
def setC {n : ℕ} (Q : BasisChebyshev n) (c : Fin n → ℝ) : BasisChebyshev n :=
  { Q with c := c }

/-- Modelled from the spec: `Q(p)` evaluates the expansion at a real point `x`
by mapping `x` affinely to `[-1, 1]` and forming the dot product of the
current coefficients with the recurrence-generated basis values there. -/
noncomputable def evaluate {n : ℕ} (Q : BasisChebyshev n) (x : ℝ) : ℝ :=
  ∑ i : Fin n, Q.c i * chebT (mapToStd Q.a Q.b x) (i : ℕ)

/-- The demo's residual function (`src/demos/demapp07.py`, lines 14-17):
it installs `c` as the approximant's coefficients (`Q.c = c`), evaluates
`q = Q(p)` entrywise, and returns `p + q·((-1/η)·p^(η+1)) - α·√q - q²`.
The Python code mutates `Q` in place, so the embedding returns the updated
approximant next to the residual vector. -/
noncomputable def resid {n m : ℕ} (c : Fin n → ℝ) (Q : BasisChebyshev n)
    (p : Fin m → ℝ) (alpha eta : ℝ) : BasisChebyshev n × (Fin m → ℝ) :=
  let Q1 := setC Q c
  let q : Fin m → ℝ := fun j => evaluate Q1 (p j)
  (Q1, fun j =>
    p j + q j * ((-1 / eta) * p j ^ (eta + 1)) - alpha * Real.sqrt (q j) - q j ^ 2)

/-- Outcome of the Broyden solver: final trial vector, its residual vector, the
threaded approximant state, and the convergence report (`converged = false` is
the `NonConvergence` outcome). -/
structure BroydenResult (n : ℕ) (σ : Type) where
  x : Fin n → ℝ
  fx : Fin n → ℝ
  state : σ
  converged : Bool

/-- Modelled from the spec: the rank-one secant update
`B += (dx - B·df)·(dxᵀ·B) / (dxᵀ·B·df)` of `NLP.broyden` (not among the
repository sources), with the spec's explicit guard: when the denominator
`dxᵀ·B·df` is zero the previous `B` is kept unchanged. -/
noncomputable def updateB {n : ℕ} (B : Matrix (Fin n) (Fin n) ℝ)
    (dx df : Fin n → ℝ) : Matrix (Fin n) (Fin n) ℝ :=
  if Matrix.dotProduct dx (B.mulVec df) = 0 then B
  else
    B + Matrix.of (fun i j =>
      (dx i - B.mulVec df i) * Matrix.vecMul dx B j / Matrix.dotProduct dx (B.mulVec df))

/-- Modelled from the spec: the iteration of `NLP.broyden` (not among the
repository sources).  With `fuel` iterations left: compute the step
`dx = -B·fx0`, set `x1 = x0 + dx`, mutate the approximant state by evaluating
`fx1 = f x1`, stop reporting convergence when every residual entry is below
`tol` in absolute value (max-norm test), otherwise secant-update `B` and
continue; when the budget is exhausted report `converged = false`. -/
noncomputable def broydenLoop {n : ℕ} {σ : Type}
    (f : (Fin n → ℝ) → σ → σ × (Fin n → ℝ)) (tol : ℝ) :
    ℕ → Matrix (Fin n) (Fin n) ℝ → (Fin n → ℝ) → (Fin n → ℝ) → σ →
      BroydenResult n σ
  | 0, _, x0, fx0, s => ⟨x0, fx0, s, false⟩
  | (fuel + 1), B, x0, fx0, s =>
    let dx : Fin n → ℝ := fun i => -(B.mulVec fx0 i)
    let x1 := x0 + dx
    let r := f x1 s
    if ∀ i, |r.2 i| < tol then ⟨x1, r.2, r.1, true⟩
    else broydenLoop f tol fuel (updateB B dx (r.2 - fx0)) x1 r.2 r.1

/-- Modelled from the spec: `NLP.broyden` / `Solve` (not among the repository
sources): evaluate `fx0 = f x0` (threading the approximant state), seed the
inverse-Jacobian approximation `B` — the seeding strategy is left open by the
spec, so the seed is a parameter — and run at most `maxit` iterations. -/
noncomputable def broyden {n : ℕ} {σ : Type}
    (f : (Fin n → ℝ) → σ → σ × (Fin n → ℝ)) (x0 : Fin n → ℝ) (s : σ)
    (B : Matrix (Fin n) (Fin n) ℝ) (tol : ℝ) (maxit : ℕ) : BroydenResult n σ :=
  let r := f x0 s
  broydenLoop f tol maxit B x0 r.2 r.1

/-- One pass of the demo's equilibrium-price bisection loop
(`src/demos/demapp07.py`, lines 66-71), for one entry of the broadcast
`pp`/`m` arrays: `dp` is halved first, then `pp` moves against the sign of the
excess supply `Q(pp)·m - pp^(-η)` by the halved `dp`. -/
noncomputable def bisectStep {n : ℕ} (Q : BasisChebyshev n) (eta m : ℝ)
    (st : ℝ × ℝ) : ℝ × ℝ :=
  (st.1 - Real.sign (evaluate Q st.1 * m - st.1 ^ (-eta)) * (st.2 / 2), st.2 / 2)

/-- The `(pp, dp)` state of one entry of the demo's bisection loop after `k` of
its 50 iterations, started from `pp = (b + a) / 2`, `dp = (b - a) / 2`. -/
noncomputable def bisectIter {n : ℕ} (Q : BasisChebyshev n) (eta m a b : ℝ)
    (k : ℕ) : ℝ × ℝ :=
  (bisectStep Q eta m)^[k] ((b + a) / 2, (b - a) / 2)

/-- NumPy's square root with its domain behaviour made explicit: on a negative
argument `np.sqrt` produces NaN (emitting a warning, not raising); the NaN
outcome is modelled as `none`. -/
noncomputable def npSqrt (x : ℝ) : Option ℝ :=
  if x < 0 then none else some (Real.sqrt x)

/-- Entry `j` of the demo's residual with NaN propagation tracked: the result
is `none` exactly when `np.sqrt` received a negative evaluated value `q`, so
the NumPy result vector contains a NaN entry; the function is total — no
exception is modelled because NumPy raises none here. -/
noncomputable def residNaN {n m : ℕ} (c : Fin n → ℝ) (Q : BasisChebyshev n)
    (p : Fin m → ℝ) (alpha eta : ℝ) (j : Fin m) : Option ℝ :=
  let q := evaluate (setC Q c) (p j)
  match npSqrt q with
  | none => none
  | some s => some (p j + q * ((-1 / eta) * p j ^ (eta + 1)) - alpha * s - q ^ 2)

/-- The demo's initial coefficient guess (`src/demos/demapp07.py`, lines 24-25):
the zero vector except the first entry, which is `1`. -/
noncomputable def c0 (n : ℕ) : Fin n → ℝ :=
  fun i => if (i : ℕ) = 0 then 1 else 0

/-! ### Helper lemmas about the Broyden loop -/

/-- If the residual callback always hands back a state whose observed
coefficient vector (`g`) equals the trial vector it was called with, then the
Broyden loop keeps the observed coefficients equal to its current iterate. -/
lemma broydenLoop_state_eq {n : ℕ} {σ : Type}
    (f : (Fin n → ℝ) → σ → σ × (Fin n → ℝ)) (tol : ℝ)
    (g : σ → Fin n → ℝ) (hf : ∀ c s, g ((f c s).1) = c) :
    ∀ (fuel : ℕ) (B : Matrix (Fin n) (Fin n) ℝ) (x0 fx0 : Fin n → ℝ) (s : σ),
      g s = x0 →
      g ((broydenLoop f tol fuel B x0 fx0 s).state) =
        (broydenLoop f tol fuel B x0 fx0 s).x
  | 0, B, x0, fx0, s, h => h
  | (fuel + 1), B, x0, fx0, s, h => by
    rw [broydenLoop]
    split
    · exact hf _ _
    · exact broydenLoop_state_eq f tol g hf fuel _ _ _ _ (hf _ _)

/-- Any property of the state preserved by the residual callback is preserved
by the whole Broyden loop. -/
lemma broydenLoop_state_pres {n : ℕ} {σ : Type}
    (f : (Fin n → ℝ) → σ → σ × (Fin n → ℝ)) (tol : ℝ)
    (P : σ → Prop) (hf : ∀ c s, P s → P ((f c s).1)) :
    ∀ (fuel : ℕ) (B : Matrix (Fin n) (Fin n) ℝ) (x0 fx0 : Fin n → ℝ) (s : σ),
      P s → P ((broydenLoop f tol fuel B x0 fx0 s).state)
  | 0, B, x0, fx0, s, h => h
  | (fuel + 1), B, x0, fx0, s, h => by
    rw [broydenLoop]
    split
    · exact hf _ _ h
    · exact broydenLoop_state_pres f tol P hf fuel _ _ _ _ (hf _ _ h)

/-- A Broyden loop result that reports convergence really passed the max-norm
tolerance test on its residual vector. -/
lemma broydenLoop_converged_tol {n : ℕ} {σ : Type}
    (f : (Fin n → ℝ) → σ → σ × (Fin n → ℝ)) (tol : ℝ) :
    ∀ (fuel : ℕ) (B : Matrix (Fin n) (Fin n) ℝ) (x0 fx0 : Fin n → ℝ) (s : σ),
      (broydenLoop f tol fuel B x0 fx0 s).converged = true →
      ∀ i, |(broydenLoop f tol fuel B x0 fx0 s).fx i| < tol
  | 0, B, x0, fx0, s => by
    intro h
    exact absurd h (by simp [broydenLoop])
  | (fuel + 1), B, x0, fx0, s => by
    rw [broydenLoop]
    split
    · intro _
      assumption
    · exact broydenLoop_converged_tol f tol fuel _ _ _ _

/-! ### Helper lemmas about Chebyshev nodes and basis values -/

/-- The angle of the `i`-th Chebyshev root lies in `[0, π]`. -/
lemma chebAngle_mem {n : ℕ} (i : Fin n) :
    (2 * (i : ℝ) + 1) * Real.pi / (2 * n) ∈ Set.Icc 0 Real.pi := by
  have hn : (0 : ℝ) < n := by
    have := i.pos
    exact_mod_cast this
  have hpi := Real.pi_pos
  constructor
  · positivity
  · rw [div_le_iff₀ (by positivity)]
    have hi : (i : ℝ) + 1 ≤ n := by
      have := i.2
      exact_mod_cast this
    nlinarith

/-- The angles of distinct Chebyshev roots are strictly increasing in the
index, so the nodes are strictly decreasing. -/
lemma chebNode_strict_anti {n : ℕ} (a b : ℝ) (hab : a < b) (i j : Fin n)
    (hij : (i : ℕ) < (j : ℕ)) : chebNode n a b j < chebNode n a b i := by
  have hn : (0 : ℝ) < n := by
    have := i.pos
    exact_mod_cast this
  have hpi := Real.pi_pos
  have hangle : (2 * (i : ℝ) + 1) * Real.pi / (2 * n) <
      (2 * (j : ℝ) + 1) * Real.pi / (2 * n) := by
    have hij' : (i : ℝ) < (j : ℝ) := by exact_mod_cast hij
    have hden : (0 : ℝ) < 2 * n := by positivity
    exact (div_lt_div_iff_of_pos_right hden).mpr (by nlinarith)
  have hcos :
      Real.cos ((2 * (j : ℝ) + 1) * Real.pi / (2 * n)) <
        Real.cos ((2 * (i : ℝ) + 1) * Real.pi / (2 * n)) :=
    Real.strictAntiOn_cos (chebAngle_mem i) (chebAngle_mem j) hangle
  have hhalf : (0 : ℝ) < (b - a) / 2 := by linarith
  unfold chebNode
  nlinarith [mul_lt_mul_of_pos_left hcos hhalf]

/-- Every Chebyshev node lies in the closed domain `[a, b]`. -/
lemma chebNode_mem {n : ℕ} (a b : ℝ) (hab : a ≤ b) (i : Fin n) :
    chebNode n a b i ∈ Set.Icc a b := by
  have h1 := Real.neg_one_le_cos ((2 * (i : ℝ) + 1) * Real.pi / (2 * n))
  have h2 := Real.cos_le_one ((2 * (i : ℝ) + 1) * Real.pi / (2 * n))
  have hhalf : (0 : ℝ) ≤ (b - a) / 2 := by linarith
  unfold chebNode
  constructor
  · nlinarith
  · nlinarith

/-- The recurrence-generated basis values agree with the canonical Chebyshev
polynomials of the first kind evaluated at the same point. -/
lemma chebT_eq_T (z : ℝ) :
    ∀ k : ℕ, chebT z k = (Polynomial.Chebyshev.T ℝ (k : ℤ)).eval z
  | 0 => by
    simp [chebT, Polynomial.Chebyshev.T_zero]
  | 1 => by
    simp [chebT, Polynomial.Chebyshev.T_one]
  | (k + 2) => by
    have h1 := chebT_eq_T z k
    have h2 := chebT_eq_T z (k + 1)
    have hcast : (((k + 2 : ℕ)) : ℤ) = (k : ℤ) + 2 := by push_cast; ring
    have hcast1 : (((k + 1 : ℕ)) : ℤ) = (k : ℤ) + 1 := by push_cast; ring
    rw [chebT, h1, h2, hcast, hcast1, Polynomial.Chebyshev.T_add_two]
    simp [Polynomial.eval_sub, Polynomial.eval_mul]

/-! ### Claim theorems -/

/-! ### Claim theorems -/

/-- C1: for every coefficient vector `c`, point array `p`, and parameters
`alpha` and `eta`, the demo's `resid` returns (entrywise)
`p + q·(-1/η)·p^(η+1) - α·√q - q²`, where `q` is the approximant evaluated at
`p` after `c` has been installed as its coefficient vector. -/
theorem resid_formula {n m : ℕ} (c : Fin n → ℝ) (Q : BasisChebyshev n)
    (p : Fin m → ℝ) (alpha eta : ℝ) (j : Fin m) :
    (resid c Q p alpha eta).2 j =
      p j + evaluate (setC Q c) (p j) * ((-1 / eta) * p j ^ (eta + 1)) -
        alpha * Real.sqrt (evaluate (setC Q c) (p j)) -
        evaluate (setC Q c) (p j) ^ 2 := rfl

/-- C2: every call to the residual writes its coefficient argument into the
shared approximant's coefficient slot (`Q.c = c`) before evaluating, and across
a whole `broyden` solve the threaded approximant's coefficients equal the trial
vector the solver last passed in — solver and approximant read one and the same
coefficient vector, with no out-of-sync copy. -/
theorem resid_shares_coefficients {n : ℕ} (Q : BasisChebyshev n)
    (p : Fin n → ℝ) (alpha eta tol : ℝ) (B : Matrix (Fin n) (Fin n) ℝ)
    (x0 : Fin n → ℝ) (maxit : ℕ) :
    (∀ c, ((resid c Q p alpha eta).1).c = c) ∧
    ((broyden (fun c Qs => resid c Qs p alpha eta) x0 Q B tol maxit).state.c =
      (broyden (fun c Qs => resid c Qs p alpha eta) x0 Q B tol maxit).x) := by
  refine ⟨fun c => rfl, ?_⟩
  exact broydenLoop_state_eq _ tol (fun s : BasisChebyshev n => s.c)
    (fun c s => rfl) maxit B x0 _ _ rfl

/-- C3: `broyden` starts from `x0` and `fx0 = f x0` (threading the state
mutation of that first evaluation); an iteration with budget left computes
`dx = -B·fx0`, sets `x1 = x0 + dx`, mutates the approximant state while
evaluating `fx1 = f x1`, stops with success exactly when `‖fx1‖ < tol`
(max-norm) and otherwise continues with the secant-updated `B` and
`x0, fx0 := x1, fx1`; an exhausted budget stops with the current iterate; and
for the demo's residual the returned coefficient vector is exactly what the
approximant already holds from the last residual evaluation. -/
theorem broyden_iteration_steps {n : ℕ} {σ : Type}
    (f : (Fin n → ℝ) → σ → σ × (Fin n → ℝ)) (tol : ℝ)
    (B : Matrix (Fin n) (Fin n) ℝ) (x0 fx0 xinit : Fin n → ℝ) (s sinit : σ)
    (fuel maxit : ℕ) (Q : BasisChebyshev n) (p xd : Fin n → ℝ)
    (alpha eta : ℝ) :
    (broyden f xinit sinit B tol maxit =
      broydenLoop f tol maxit B xinit (f xinit sinit).2 (f xinit sinit).1) ∧
    (broydenLoop f tol 0 B x0 fx0 s = ⟨x0, fx0, s, false⟩) ∧
    (broydenLoop f tol (fuel + 1) B x0 fx0 s =
      if ∀ i, |(f (x0 + fun i => -(B.mulVec fx0 i)) s).2 i| < tol then
        ⟨x0 + fun i => -(B.mulVec fx0 i),
         (f (x0 + fun i => -(B.mulVec fx0 i)) s).2,
         (f (x0 + fun i => -(B.mulVec fx0 i)) s).1, true⟩
      else
        broydenLoop f tol fuel
          (updateB B (fun i => -(B.mulVec fx0 i))
            ((f (x0 + fun i => -(B.mulVec fx0 i)) s).2 - fx0))
          (x0 + fun i => -(B.mulVec fx0 i))
          (f (x0 + fun i => -(B.mulVec fx0 i)) s).2
          (f (x0 + fun i => -(B.mulVec fx0 i)) s).1) ∧
    ((broyden (fun c Qs => resid c Qs p alpha eta) xd Q B tol maxit).state.c =
      (broyden (fun c Qs => resid c Qs p alpha eta) xd Q B tol maxit).x) := by
  refine ⟨rfl, rfl, rfl, ?_⟩
  exact broydenLoop_state_eq _ tol (fun s : BasisChebyshev n => s.c)
    (fun c s => rfl) maxit B xd _ _ rfl

/-- C6: when the secant denominator `dxᵀ·B·df` is zero, the rank-one update of
`B` is skipped by the explicit guard — the previous `B` is kept and the
division is never performed. -/
theorem secant_guard {n : ℕ} (B : Matrix (Fin n) (Fin n) ℝ) (dx df : Fin n → ℝ)
    (h : Matrix.dotProduct dx (B.mulVec df) = 0) :
    updateB B dx df = B := by
  simp [updateB, h]

/-- Witness for C6 at a concrete singular instance: `B` the identity, `df = 0`,
so the denominator is zero and the update returns `B` unchanged. -/
theorem secant_guard_witness :
    Matrix.dotProduct (fun _ : Fin 1 => (1 : ℝ))
        ((1 : Matrix (Fin 1) (Fin 1) ℝ).mulVec 0) = 0 ∧
    updateB (1 : Matrix (Fin 1) (Fin 1) ℝ) (fun _ => 1) 0 = 1 :=
  ⟨by simp, secant_guard 1 (fun _ => 1) 0 (by simp)⟩

/-- C7: a `broyden` run whose returned residual vector does not meet the
tolerance test — in particular a run that exhausted its iteration budget
without the residual norm dropping below tolerance, such as the demo's setup
with `max_iterations = 1` — reports `converged = false`, the distinguishable
`NonConvergence` outcome, rather than claiming success or erroring. -/
theorem nonconvergence_reported {n : ℕ} {σ : Type}
    (f : (Fin n → ℝ) → σ → σ × (Fin n → ℝ)) (x0 : Fin n → ℝ) (s : σ)
    (B : Matrix (Fin n) (Fin n) ℝ) (tol : ℝ) (maxit : ℕ)
    (h : ¬ ∀ i, |(broyden f x0 s B tol maxit).fx i| < tol) :
    (broyden f x0 s B tol maxit).converged = false := by
  cases hc : (broyden f x0 s B tol maxit).converged
  · rfl
  · exact absurd (broydenLoop_converged_tol f tol maxit B x0 _ _ hc) h

/-- C4: for every degree `n ≥ 1` and domain `a < b`, the constructed
approximant's node sequence consists of `n` pairwise-distinct points, each in
`[a, b]`; the nodes are fixed at construction — neither `SetCoefficients` nor
a whole Broyden solve (whose residual evaluations mutate only the
coefficients) changes them. -/
theorem nodes_distinct_in_domain {n : ℕ} (a b : ℝ) (_hn : 1 ≤ n) (hab : a < b)
    (cinit : Fin n → ℝ) (p x0 : Fin n → ℝ) (alpha eta tol : ℝ)
    (B : Matrix (Fin n) (Fin n) ℝ) (maxit : ℕ) :
    (∀ i j : Fin n, i ≠ j →
      (mkBasis n a b cinit).nodes i ≠ (mkBasis n a b cinit).nodes j) ∧
    (∀ i : Fin n, (mkBasis n a b cinit).nodes i ∈ Set.Icc a b) ∧
    (∀ c, (setC (mkBasis n a b cinit) c).nodes = (mkBasis n a b cinit).nodes) ∧
    ((broyden (fun c Qs => resid c Qs p alpha eta) x0 (mkBasis n a b cinit)
        B tol maxit).state.nodes = (mkBasis n a b cinit).nodes) := by
  refine ⟨?_, ?_, fun c => rfl, ?_⟩
  · intro i j hij
    rcases lt_trichotomy (i : ℕ) (j : ℕ) with h | h | h
    · exact (chebNode_strict_anti a b hab i j h).ne'
    · exact absurd (Fin.ext h) hij
    · exact (chebNode_strict_anti a b hab j i h).ne
  · intro i
    exact chebNode_mem a b hab.le i
  · exact broydenLoop_state_pres _ tol
      (fun s : BasisChebyshev n => s.nodes = (mkBasis n a b cinit).nodes)
      (fun c s h => h) maxit B x0 _ _ rfl

/-- Witness for C4 at degree 2 on the domain `[0, 1]`: both hypotheses hold
and the nodes land inside the domain. -/
theorem nodes_distinct_in_domain_witness :
    (1 ≤ 2 ∧ (0 : ℝ) < 1) ∧
    (∀ i : Fin 2, (mkBasis 2 0 1 (fun _ => 0)).nodes i ∈ Set.Icc (0 : ℝ) 1) :=
  ⟨⟨by norm_num, by norm_num⟩,
    (nodes_distinct_in_domain 0 1 (by norm_num) (by norm_num) (fun _ => 0)
      (fun _ => 0) (fun _ => 0) 0 0 0 1 0).2.1⟩

/-- C5: for every coefficient vector and every real evaluation point `x`
(inside or outside the domain), `evaluate` returns the dot product of the
coefficients with the canonical Chebyshev basis values `T_0 .. T_{n-1}` at the
affinely mapped image of `x`, and that map really carries `[a, b]` onto
`[-1, 1]` (endpoint to endpoint). -/
theorem evaluate_chebyshev_dot {n : ℕ} (Q : BasisChebyshev n) (x : ℝ)
    (hab : Q.a < Q.b) :
    mapToStd Q.a Q.b Q.a = -1 ∧ mapToStd Q.a Q.b Q.b = 1 ∧
    evaluate Q x = ∑ i : Fin n,
      Q.c i * (Polynomial.Chebyshev.T ℝ ((i : ℕ) : ℤ)).eval
        (mapToStd Q.a Q.b x) := by
  have hne : Q.b - Q.a ≠ 0 := sub_ne_zero.mpr hab.ne'
  refine ⟨?_, ?_, ?_⟩
  · unfold mapToStd
    rw [div_eq_iff hne]
    ring
  · unfold mapToStd
    rw [div_eq_iff hne]
    ring
  · unfold evaluate
    exact Finset.sum_congr rfl fun i _ => by rw [chebT_eq_T]

/-- Witness for C5: the degree-1 approximant on `[0, 1]` evaluated at `0`. -/
theorem evaluate_chebyshev_dot_witness :
    ((mkBasis 1 0 1 (fun _ => 3)).a < (mkBasis 1 0 1 (fun _ => 3)).b) ∧
    evaluate (mkBasis 1 0 1 (fun _ => 3)) 0 = ∑ i : Fin 1,
      (mkBasis 1 0 1 (fun _ => 3)).c i * (Polynomial.Chebyshev.T ℝ ((i : ℕ) : ℤ)).eval
        (mapToStd (mkBasis 1 0 1 (fun _ => 3)).a (mkBasis 1 0 1 (fun _ => 3)).b 0) :=
  ⟨by norm_num [mkBasis],
    (evaluate_chebyshev_dot (mkBasis 1 0 1 (fun _ => 3)) 0
      (by norm_num [mkBasis])).2.2⟩

/-- Witness for C7: a constant residual `1` on a one-dimensional system with
tolerance `1/2` and a single allowed iteration misses the tolerance and the
run is reported as non-converged. -/
theorem nonconvergence_reported_witness :
    (¬ ∀ i, |(broyden (fun (_ : Fin 1 → ℝ) (_ : Unit) => ((), fun _ => (1 : ℝ)))
        0 () 1 (1 / 2) 1).fx i| < 1 / 2) ∧
    (broyden (fun (_ : Fin 1 → ℝ) (_ : Unit) => ((), fun _ => (1 : ℝ)))
        0 () 1 (1 / 2) 1).converged = false := by
  have hfx : (broyden (fun (_ : Fin 1 → ℝ) (_ : Unit) => ((), fun _ => (1 : ℝ)))
      0 () 1 (1 / 2) 1).fx = fun _ => (1 : ℝ) := by
    show (broydenLoop (fun (_ : Fin 1 → ℝ) (_ : Unit) => ((), fun _ => (1 : ℝ)))
        (1 / 2) (0 + 1) 1 0 (fun _ => (1 : ℝ)) ()).fx = fun _ => (1 : ℝ)
    rw [broydenLoop, if_neg]
    · rfl
    · intro hcon
      have h1 := hcon 0
      norm_num at h1
  have h : ¬ ∀ i, |(broyden (fun (_ : Fin 1 → ℝ) (_ : Unit) =>
      ((), fun _ => (1 : ℝ))) 0 () 1 (1 / 2) 1).fx i| < 1 / 2 := by
    rw [hfx]
    intro hcon
    have h1 := hcon 0
    norm_num at h1
  exact ⟨h, nonconvergence_reported _ _ _ _ _ _ h⟩

/-- The real sign function only takes the values `-1`, `0` and `1`, so its
absolute value is at most `1`. -/
lemma abs_sign_le_one (x : ℝ) : |Real.sign x| ≤ 1 := by
  rcases Real.sign_apply_eq x with h | h | h <;> rw [h] <;> norm_num

/-- Invariant of the demo's bisection loop: after `k` iterations the deviation
of `pp` from the midpoint is at most `(b-a)/2 · (1 - 2⁻ᵏ)` and the halved
width `dp` equals `(b-a)/2 · 2⁻ᵏ`. -/
lemma bisectIter_bound {n : ℕ} (Q : BasisChebyshev n) (eta m a b : ℝ)
    (hab : a < b) :
    ∀ k : ℕ,
      |(bisectIter Q eta m a b k).1 - (b + a) / 2| ≤
          (b - a) / 2 * (1 - (1 / 2) ^ k) ∧
      (bisectIter Q eta m a b k).2 = (b - a) / 2 * (1 / 2) ^ k
  | 0 => by
    refine ⟨?_, ?_⟩ <;> simp [bisectIter]
  | (k + 1) => by
    obtain ⟨h1, h2⟩ := bisectIter_bound Q eta m a b hab k
    have hstep : bisectIter Q eta m a b (k + 1) =
        bisectStep Q eta m (bisectIter Q eta m a b k) := by
      unfold bisectIter
      rw [Function.iterate_succ_apply']
    generalize hst : bisectIter Q eta m a b k = st at h1 h2 hstep
    have hhalf : (0 : ℝ) ≤ (b - a) / 2 := by linarith
    have hd : (0 : ℝ) ≤ st.2 / 2 := by
      rw [h2]
      positivity
    have hsign := abs_sign_le_one (evaluate Q st.1 * m - st.1 ^ (-eta))
    have hSd : |Real.sign (evaluate Q st.1 * m - st.1 ^ (-eta)) * (st.2 / 2)| ≤
        st.2 / 2 := by
      rw [abs_mul, abs_of_nonneg hd]
      exact mul_le_of_le_one_left hd hsign
    constructor
    · rw [hstep]
      show |st.1 - Real.sign (evaluate Q st.1 * m - st.1 ^ (-eta)) * (st.2 / 2) -
          (b + a) / 2| ≤ (b - a) / 2 * (1 - (1 / 2) ^ (k + 1))
      have heq : st.1 - Real.sign (evaluate Q st.1 * m - st.1 ^ (-eta)) *
          (st.2 / 2) - (b + a) / 2 =
          (st.1 - (b + a) / 2) +
            (-(Real.sign (evaluate Q st.1 * m - st.1 ^ (-eta)) * (st.2 / 2))) := by
        ring
      calc |st.1 - Real.sign (evaluate Q st.1 * m - st.1 ^ (-eta)) * (st.2 / 2) -
          (b + a) / 2|
          ≤ |st.1 - (b + a) / 2| +
            |Real.sign (evaluate Q st.1 * m - st.1 ^ (-eta)) * (st.2 / 2)| := by
            rw [heq]
            simpa using abs_add (st.1 - (b + a) / 2)
              (-(Real.sign (evaluate Q st.1 * m - st.1 ^ (-eta)) * (st.2 / 2)))
        _ ≤ (b - a) / 2 * (1 - (1 / 2) ^ k) + st.2 / 2 := add_le_add h1 hSd
        _ = (b - a) / 2 * (1 - (1 / 2) ^ (k + 1)) := by
            rw [h2, pow_succ]
            ring
    · rw [hstep]
      show st.2 / 2 = (b - a) / 2 * (1 / 2) ^ (k + 1)
      rw [h2, pow_succ]
      ring

/-- C9: every iterate `pp` of the demo's 50-round equilibrium-price bisection
loop — `pp` started at `(a+b)/2`, `dp` started at `(b-a)/2` and halved at the
start of each round before `pp` moves by `±dp` — stays strictly inside the
open interval `(a, b)`, because the accumulated displacement is below
`(b-a)/2`. -/
theorem bisection_stays_interior {n : ℕ} (Q : BasisChebyshev n)
    (eta m a b : ℝ) (hab : a < b) (k : ℕ) :
    (bisectIter Q eta m a b k).1 ∈ Set.Ioo a b := by
  obtain ⟨h1, _⟩ := bisectIter_bound Q eta m a b hab k
  have hpow : (0 : ℝ) < (1 / 2) ^ k := by positivity
  have hhalf : (0 : ℝ) < (b - a) / 2 := by linarith
  obtain ⟨hl, hr⟩ := abs_le.mp h1
  constructor
  · nlinarith [mul_pos hhalf hpow]
  · nlinarith [mul_pos hhalf hpow]

/-- Witness for C9: on the demo's own domain `[0.5, 2]` with `eta = 3.5`,
`m = 5` and a degree-1 approximant, the third bisection iterate lies strictly
between the bounds. -/
theorem bisection_stays_interior_witness :
    ((1 / 2 : ℝ) < 2) ∧
    (bisectIter (mkBasis 1 (1 / 2) 2 (fun _ => 1)) (7 / 2) 5 (1 / 2) 2 3).1 ∈
      Set.Ioo (1 / 2 : ℝ) 2 :=
  ⟨by norm_num,
    bisection_stays_interior (mkBasis 1 (1 / 2) 2 (fun _ => 1)) (7 / 2) 5
      (1 / 2) 2 (by norm_num) 3⟩

/-- C10: the demo's residual is not total over coefficient vectors: with the
coefficient vector `(-1, 0, ..., 0)` the evaluated approximant value `q` is
negative (here `q = -1` at the point `1`), and the NaN-tracking residual
returns the NaN marker produced by `np.sqrt` of a negative number instead of
raising an error — so the solver can encounter non-finite residual entries. -/
theorem resid_not_total :
    evaluate (setC (mkBasis 21 (1 / 2) 2 (c0 21))
        (fun i => if (i : ℕ) = 0 then -1 else 0)) 1 < 0 ∧
    residNaN (fun i => if (i : ℕ) = 0 then -1 else 0) (mkBasis 21 (1 / 2) 2 (c0 21))
      (fun _ : Fin 1 => 1) 1 (7 / 2) 0 = none := by
  have heval : evaluate (setC (mkBasis 21 (1 / 2) 2 (c0 21))
      (fun i => if (i : ℕ) = 0 then -1 else 0)) 1 = -1 := by
    unfold evaluate
    rw [Finset.sum_eq_single (0 : Fin 21)]
    · simp [setC, chebT]
    · intro i _ hi
      have hv : (i : ℕ) ≠ 0 := fun h => hi (Fin.ext h)
      simp [setC, hv]
    · intro h
      exact absurd (Finset.mem_univ _) h
  refine ⟨by rw [heval]; norm_num, ?_⟩
  unfold residNaN npSqrt
  simp only [heval]
  rw [if_pos (by norm_num)]

end CompEcon
